import Mathlib

/-!
Verification development for a streaming, partially-materialized SQL cache
(dataflow engine with base tables, operator kernels, partial readers, a
controller/migration planner, and SQL rewrite passes).

Definitions come first, split into:
 * values/rows and spec-modelled dataflow operator semantics (union, grouped
   count, left join, partial reader, ILIKE post-filter, freshness gating);
 * the persistent-state read handle's consistency gate (`do_lookup`);
 * the controller's recipe application / rollback and node-removal logic;
 * the worker-liveness check;
 * the SQL negation-normalization pass (`negate_expr`).

Theorems about these definitions follow at the end of the file.
-/

namespace Readyset

/-! ## Values and rows -/

/-- Modelled from the spec: a Value is a tagged sum; we keep the tags the
concrete scenarios need (null, signed integer, text). -/
inductive DataType where
  | none
  | int (n : Int)
  | text (s : String)
deriving DecidableEq, Repr

/-- Modelled from the spec: a record is an ordered sequence of values. -/
abbrev Row := List DataType

/-- Modelled from the spec: ground-truth point lookup: the rows whose key
column (column 0) equals the requested key. -/
def lookupKey (rows : List Row) (k : DataType) : List Row :=
  rows.filter fun r => decide (r.head? = some k)

/-! ## Spec-modelled union (scenario 1) -/

/-- Modelled from the spec: the union-all operator (missing from src/, only its
integration test is present) concatenates its inputs. -/
def unionAll (a b : List Row) : List Row := a ++ b

/-! ## Spec-modelled grouped count and left join (scenario 2) -/

/-- Modelled from the spec: grouped COUNT aggregation (missing from src/):
one output row `[g, count]` per distinct group key, counting input rows in
the group. -/
def voteCount (votes : List Row) : List Row :=
  ((votes.filterMap fun r => r.head?).dedup).map fun k =>
    [k, DataType.int ((votes.filter fun r => decide (r.head? = some k)).length)]

/-- Modelled from the spec: the left-join operator (missing from src/). A left
row with right matches emits the products; a left row with no right match
emits a single null-extended row. -/
def leftJoin (left right : List Row) (lcol rcol rightWidth : Nat) : List Row :=
  left.flatMap fun l =>
    let ms := right.filter fun r => decide (r.get? rcol = l.get? lcol)
    match ms with
    | [] => [l ++ List.replicate rightWidth DataType.none]
    | _ => ms.map fun r => l ++ r

/-- Base-table contents of scenario 2: article(0,"A"), article(1,"A"). -/
def articleBase : List Row := [[.int 0, .text "A"], [.int 1, .text "A"]]

/-- Base-table contents of scenario 2: vote(0,0) keyed by article id. -/
def voteBase : List Row := [[.int 0, .int 0]]

/-- Modelled from the spec: the ArticleWithVoteCount view: article LEFT JOIN
the per-id vote count on id, projected to (id, title, votes). -/
def awvc : List Row :=
  (leftJoin articleBase (voteCount voteBase) 0 0 2).map fun r =>
    [(r.get? 0).getD .none, (r.get? 1).getD .none, (r.get? 3).getD .none]

/-! ## Spec-modelled partial reader (scenario 4) -/

/-- Modelled from the spec: a partial reader (reader node code is missing from
src/) keeps the set of filled keys and sits over ground-truth base rows. -/
structure Reader where
  filled : List DataType
  base : List Row
deriving DecidableEq, Repr

/-- The reader's length: the number of filled keys. -/
def Reader.len (r : Reader) : Nat := r.filled.length

/-- Modelled from the spec: a blocking lookup; on a hole the upquery/replay
fills the key with exactly the ground-truth rows for it (replay completeness)
and marks the key filled. -/
def Reader.lookupBlocking (r : Reader) (k : DataType) : List Row × Reader :=
  let rows := lookupKey r.base k
  if k ∈ r.filled then (rows, r)
  else (rows, ⟨k :: r.filled, r.base⟩)

/-- The three rows keyed 1 inserted in scenario 4. -/
def rows3 : List Row := [[.int 1, .int 1], [.int 1, .int 2], [.int 1, .int 3]]

/-! ## Spec-modelled ILIKE post-filter and ordered raw lookup (scenario 3) -/

/-- Fuel-indexed SQL LIKE matcher over character lists; `%` matches any
sequence, `_` any one character. The fuel passed by `ilike` always suffices. -/
def likeF : Nat → List Char → List Char → Bool
  | 0, _, _ => false
  | m + 1, p, s =>
    match p, s with
    | [], [] => true
    | [], _ :: _ => false
    | '%' :: ps, [] => likeF m ps []
    | '%' :: ps, c :: ss => likeF m ps (c :: ss) || likeF m ('%' :: ps) ss
    | '_' :: _, [] => false
    | '_' :: ps, _ :: ss => likeF m ps ss
    | _ :: _, [] => false
    | ch :: ps, c :: ss => (ch == c) && likeF m ps ss

/-- Lower-cased character list of a string. -/
def lowerChars (s : String) : List Char := s.data.map Char.toLower

/-- Modelled from the spec: case-insensitive LIKE. -/
def ilike (s pat : String) : Bool :=
  likeF (pat.data.length + s.data.length + 1) (lowerChars pat) (lowerChars s)

/-- The integer stored at column `c` of a row (0 when absent or non-integer),
used as the ordering key. -/
def rowInt (c : Nat) (r : Row) : Int :=
  match r.get? c with
  | some (.int n) => n
  | _ => 0

/-- Ordered insertion for the order-by clause. -/
def insertByCol (c : Nat) (r : Row) : List Row → List Row
  | [] => [r]
  | x :: xs => if rowInt c r ≤ rowInt c x then r :: x :: xs else x :: insertByCol c r xs

/-- Insertion sort by the integer in column `c`, ascending. -/
def sortByCol (c : Nat) : List Row → List Row
  | [] => []
  | x :: xs => insertByCol c x (sortByCol c xs)

/-- Modelled from the spec: a full-range raw_lookup (reader code missing from
src/) with an ILIKE post-filter applied to rows after lookup and before
return, ordered ascending by an integer column. -/
def rawLookupAll (rows : List Row) (filtCol : Nat) (pat : String) (ordCol : Nat) : List Row :=
  sortByCol ordCol (rows.filter fun r =>
    match r.get? filtCol with
    | some (.text s) => ilike s pat
    | _ => false)

/-- Base-table contents of scenario 3. -/
def baseT : List Row :=
  [[.text "foo", .int 1], [.text "bar", .int 2], [.text "baz", .int 3],
   [.text "BAZ", .int 4], [.text "qux", .int 5]]

/-! ## Persistent-state read handle (dataflow-state/src/persistent_state/handle.rs) -/

/-- Rust `Option` ordering on replication offsets: `None` sorts below
`Some _`, as used by `self.replication_offset < inner.replication_offset`. -/
def optLt : Option Nat → Option Nat → Bool
  | Option.none, some _ => true
  | some a, some b => decide (a < b)
  | _, _ => false

/-- The shared state behind a `PersistentStateHandle`: the base table's
replication offset and its rows (the RocksDB column families are abstracted
to a row list scanned by column projection). -/
structure SharedState where
  replicationOffset : Option Nat
  rows : List Row
deriving DecidableEq, Repr

/-- The read handle: its own replication offset, possibly behind the base. -/
structure StateHandle where
  replicationOffset : Option Nat
deriving DecidableEq, Repr

/-- Embedded from `PersistentStateHandle::do_lookup`: if the handle's
replication offset is behind the shared state's, the lookup is a consistency
miss (`None`) and no rows are read; otherwise the requested index is scanned
(index machinery abstracted to a projection scan of the rows). -/
def do_lookup (h : StateHandle) (inner : SharedState) (columns : List Nat)
    (key : Row) : Option (List Row) :=
  if optLt h.replicationOffset inner.replicationOffset then Option.none
  else some (inner.rows.filter fun r => decide (columns.map r.get? = key.map some))

/-! ## Spec-modelled reader freshness gating (§4.5) -/

/-- A freshness timestamp vector: per-base monotonically increasing stamps. -/
abbrev TsVector := List (Nat × Nat)

/-- The stamp a vector records for base `k`, if any. -/
def lookupTs (t : TsVector) (k : Nat) : Option Nat :=
  (t.find? fun p => decide (p.1 = k)).map Prod.snd

/-- Modelled from the spec: vector `a` dominates `b` when every component of
`b` is present in `a` with at least the same stamp. -/
def dominates (a b : TsVector) : Bool :=
  b.all fun p =>
    match lookupTs a p.1 with
    | some w => decide (p.2 ≤ w)
    | Option.none => false

/-- A structured reader query: key, blocking flag and required freshness
timestamp, following `ViewQuery` in the integration tests. -/
structure ViewQuery where
  key : DataType
  block : Bool
  timestamp : Option TsVector
deriving DecidableEq, Repr

/-- Modelled from the spec: a reader carrying its last-seen timestamp vector
in addition to its filled keys and ground-truth rows. -/
structure TsReader where
  timestamp : TsVector
  filled : List DataType
  base : List Row
deriving DecidableEq, Repr

/-- Outcome of a reader lookup: rows, a freshness miss (no rows, no
blocking), or a pending non-blocking miss. -/
inductive ReadReply where
  | rows (rs : List Row)
  | freshnessMiss
  | pending
deriving DecidableEq, Repr

/-- Serving a lookup once the freshness gate has passed: filled keys are
served; a hole blocks (and is then served from ground truth) when `block`
is set, else the reply is pending. -/
def serveLookup (rd : TsReader) (q : ViewQuery) : ReadReply :=
  if q.key ∈ rd.filled then .rows (lookupKey rd.base q.key)
  else if q.block then .rows (lookupKey rd.base q.key)
  else .pending

/-- Modelled from the spec: raw_lookup (the reader-side code is missing from
src/): a supplied required vector T is checked against the reader's
last-seen vector first; if the reader's vector does not dominate T the
lookup fails with a freshness miss and never reaches the serving path. -/
def raw_lookup (rd : TsReader) (q : ViewQuery) : ReadReply :=
  match q.timestamp with
  | some t => if dominates rd.timestamp t then serveLookup rd q else .freshnessMiss
  | Option.none => serveLookup rd q

/-! ## Controller recipe application (noria/server/src/controller/inner.rs) -/

/-- Outcome of `self.migrate(|mig| new.activate(mig))` in `apply_recipe`:
the migration machinery itself can fail (the `?`), the activation can fail
inside the migration, or activation succeeds. -/
inductive MigOutcome (α ε : Type) where
  | outerErr (e : ε)
  | innerErr (e : ε)
  | ok (a : α)

/-- The slice of `ControllerInner` state these claims are about: the
currently installed recipe. -/
structure Ctrl (ρ : Type) where
  recipe : ρ

/-- Embedded from `ControllerInner::apply_recipe`, abstracted over the recipe
type: on activation success the recipe field becomes the new recipe (after
the node-removal phase, modelled separately); on an activation error the
current recipe is replaced by its `revert()`; a migration-machinery error
propagates via `?` without touching the recipe. -/
def apply_recipe {ρ α ε : Type} (rev : ρ → ρ) (mig : ρ → MigOutcome α ε)
    (s : Ctrl ρ) (new : ρ) : Except ε α × Ctrl ρ :=
  match mig new with
  | .outerErr e => (.error e, s)
  | .innerErr e => (.error e, { recipe := rev s.recipe })
  | .ok a => (.ok a, { recipe := new })

/-- Embedded from `ControllerInner::extend_recipe`: the old recipe is cloned,
the current one is swapped for a blank and extended; on any failure of the
extension or of `apply_recipe` the old recipe is written back. `extendR`
models `Recipe::extend` (not under src/): pure, so its error case hands the
untouched input back exactly as the Rust `Err((old, e))` does. -/
def extend_recipe {ρ α ε : Type} (blank : ρ) (rev : ρ → ρ) (mig : ρ → MigOutcome α ε)
    (extendR : ρ → String → Except ε ρ) (s : Ctrl ρ) (txt : String) :
    Except ε α × Ctrl ρ :=
  let old := s.recipe
  match extendR s.recipe txt with
  | .error e => (.error e, { recipe := old })
  | .ok newR =>
    match apply_recipe rev mig { recipe := blank } newR with
    | (.ok x, s₁) => (.ok x, s₁)
    | (.error e, _) => (.error e, { recipe := old })

/-- Embedded from `ControllerInner::install_recipe`: parse (`fromStr` models
`Recipe::from_str`), replace (`replaceR` models `Recipe::replace`), apply;
on a parse error the recipe is untouched, on an apply error the old recipe
is restored. -/
def install_recipe {ρ α ε : Type} (blank : ρ) (rev : ρ → ρ) (mig : ρ → MigOutcome α ε)
    (fromStr : String → Except ε ρ) (replaceR : ρ → ρ → ρ) (s : Ctrl ρ) (txt : String) :
    Except ε α × Ctrl ρ :=
  match fromStr txt with
  | .error e => (.error e, s)
  | .ok r =>
    let old := s.recipe
    let newR := replaceR s.recipe r
    match apply_recipe rev mig { recipe := blank } newR with
    | (.ok x, s₁) => (.ok x, s₁)
    | (.error e, _) => (.error e, { recipe := old })

/-! ## Controller node-removal phase (apply_recipe Ok branch, remove_leaf) -/

/-- The dataflow graph as the controller sees it: node indices, which of them
are base tables, and directed edges. -/
structure DGraph where
  nodes : List Nat
  baseNodes : List Nat
  edges : List (Nat × Nat)
deriving DecidableEq, Repr

/-- Number of outgoing edges (children) of node `n`. -/
def childCount (g : DGraph) (n : Nat) : Nat :=
  (g.edges.filter fun e => decide (e.1 = n)).length

/-- Remove a node and its incident edges from the graph. -/
def removeNode (g : DGraph) (n : Nat) : DGraph :=
  ⟨g.nodes.filter fun m => decide (m ≠ n),
   g.baseNodes.filter fun m => decide (m ≠ n),
   g.edges.filter fun e => decide (e.1 ≠ n ∧ e.2 ≠ n)⟩

/-- One step of the removal phase: a `remove_leaf` call on a non-base query
leaf, or the drop of an orphaned base table. -/
inductive RemovalStep where
  | leafStep (n : Nat)
  | baseStep (n : Nat)
deriving DecidableEq, Repr

/-- Embedded from the base-drop loop of `apply_recipe`: each removed base is
dropped only after `assert_eq!(children.len(), 0)`; a base that still has
children makes the assertion fail (`Option.none`). -/
def dropBases (g : DGraph) : List Nat → Option (List RemovalStep × DGraph)
  | [] => some ([], g)
  | b :: rest =>
    if childCount g b = 0 then
      match dropBases (removeNode g b) rest with
      | some (tr, g₂) => some (.baseStep b :: tr, g₂)
      | Option.none => Option.none
    else Option.none

/-- The sequence of `remove_leaf` calls of the removal phase;
`ControllerInner::remove_leaf` itself (reader discovery and the upward
cascade) is abstracted as `rl`. -/
def runLeafRemovals (rl : DGraph → Nat → Option DGraph) :
    DGraph → List Nat → Option (List RemovalStep × DGraph)
  | g, [] => some ([], g)
  | g, n :: rest =>
    match rl g n with
    | some g₁ =>
      match runLeafRemovals rl g₁ rest with
      | some (tr, g₂) => some (.leafStep n :: tr, g₂)
      | Option.none => Option.none
    | Option.none => Option.none

/-- Embedded from the `Ok` branch of `ControllerInner::apply_recipe`: the
removed leaves are partitioned into bases and others; the others are
collected in the order of a topological enumeration `topo` of the graph and
reversed, each removed via `remove_leaf`; only afterwards are the removed
bases dropped, each guarded by the no-children assertion. -/
def applyRemovals (rl : DGraph → Nat → Option DGraph) (g : DGraph)
    (topo removedLeaves : List Nat) : Option (List RemovalStep × DGraph) :=
  let removedBases := removedLeaves.filter fun n => g.baseNodes.contains n
  let removedOther := removedLeaves.filter fun n => !(g.baseNodes.contains n)
  let topoRemovals := (topo.filter fun n => removedOther.contains n).reverse
  match runLeafRemovals rl g topoRemovals with
  | some (tr₁, g₁) =>
    match dropBases g₁ removedBases with
    | some (tr₂, g₂) => some (tr₁ ++ tr₂, g₂)
    | Option.none => Option.none
  | Option.none => Option.none

/-! ## Worker liveness (ControllerInner::check_worker_liveness) -/

/-- A registered worker: health flag and the time since its last heartbeat
(in the same units as `heartbeat_every`). -/
structure WorkerStatus where
  healthy : Bool
  lastHeartbeatElapsed : Nat
deriving DecidableEq, Repr

/-- The controller state the liveness check reads: the worker map, the
heartbeat interval, and whether `last_checked_workers.elapsed()` has passed
`healthcheck_every`. -/
structure LivenessState where
  workers : List (Nat × WorkerStatus)
  heartbeatEvery : Nat
  healthcheckDue : Bool
deriving DecidableEq, Repr

/-- Embedded from `ControllerInner::check_worker_liveness`: a first pass (only
when the healthcheck is due) looks for any healthy worker whose last
heartbeat is older than 4 heartbeat intervals; only if one exists does a
second pass mark every healthy worker older than 3 intervals as failed and
hand the list to `handle_failed_workers`. Returns the updated state and the
failed list. -/
def check_worker_liveness (s : LivenessState) : LivenessState × List Nat :=
  let anyFailed := s.healthcheckDue &&
    s.workers.any fun p => p.2.healthy && decide (p.2.lastHeartbeatElapsed > s.heartbeatEvery * 4)
  if anyFailed then
    let cond := fun (p : Nat × WorkerStatus) =>
      p.2.healthy && decide (p.2.lastHeartbeatElapsed > s.heartbeatEvery * 3)
    let failed := (s.workers.filter cond).map Prod.fst
    let workers₂ := s.workers.map fun p =>
      if cond p then (p.1, ⟨false, p.2.lastHeartbeatElapsed⟩) else p
    ({ s with workers := workers₂ }, failed)
  else (s, [])

/-- The concrete liveness state refuting claim C8: one healthy worker at 3.5
heartbeat intervals (heartbeat interval 10, elapsed 35) with the healthcheck
due. -/
def cexLiveness : LivenessState :=
  ⟨[(0, ⟨true, 35⟩)], 10, true⟩

/-! ## SQL negation normalization (readyset-sql-passes/src/expr/normalize_negation.rs) -/

/-- Embedded from nom_sql: the binary operators matched by `negate_expr`. -/
inductive BinaryOperator where
  | And | Or | Equal | NotEqual | Greater | GreaterOrEqual | Less | LessOrEqual
  | Like | NotLike | ILike | NotILike | Is | IsNot | Add | Subtract | Multiply | Divide
deriving DecidableEq, Repr

/-- Embedded from nom_sql `UnaryOperator`. -/
inductive UnaryOperator where
  | Not
  | Neg
deriving DecidableEq, Repr

/-- Embedded from nom_sql `Literal` (representative variants). -/
inductive Literal where
  | Null
  | Integer (n : Int)
  | Str (s : String)
deriving DecidableEq, Repr

/-- Embedded from nom_sql `Expr`: the variants `negate_expr` matches on, plus
`Literal`, `Column` and `Call` as representatives of its `_` catch-all. -/
inductive Expr where
  | Literal (l : Readyset.Literal)
  | Column (name : String)
  | Call (name : String)
  | BinaryOp (op : BinaryOperator) (lhs rhs : Expr)
  | UnaryOp (op : UnaryOperator) (rhs : Expr)
  | CaseWhen (condition : Expr) (then_expr : Expr) (else_expr : Option Expr)
  | Between (operand lo hi : Expr) (negated : Bool)
  | In (lhs : Expr) (rhs : List Expr) (negated : Bool)

/-- Size of the negation-relevant spine of an expression: counts the
subexpressions `negate_expr` can recurse into; used as sufficient fuel. -/
def esize : Expr → Nat
  | .BinaryOp _ l r => esize l + esize r + 1
  | .UnaryOp _ r => esize r + 1
  | .CaseWhen _ t els => esize t + (match els with | some x => esize x | Option.none => 0) + 1
  | _ => 1

/-- Embedded from the `*op = match *op` table of `negate_expr`: the negated
operator, or `none` for the arithmetic operators (the `return false` arm). -/
def flipOp : BinaryOperator → Option BinaryOperator
  | .And => some .Or
  | .Or => some .And
  | .Equal => some .NotEqual
  | .NotEqual => some .Equal
  | .Greater => some .LessOrEqual
  | .GreaterOrEqual => some .Less
  | .Less => some .GreaterOrEqual
  | .LessOrEqual => some .Greater
  | .Like => some .NotLike
  | .NotLike => some .Like
  | .ILike => some .NotILike
  | .NotILike => some .ILike
  | .Is => some .IsNot
  | .IsNot => some .Is
  | .Add => Option.none
  | .Subtract => Option.none
  | .Multiply => Option.none
  | .Divide => Option.none

/-- Embedded from `negate_expr` (normalize_negation.rs), fuel-indexed so the
recursion is structural; `negate_expr` passes sufficient fuel. The result is
`some (b, e₂)` when the Rust function returns `b` leaving the expression as
`e₂` (the Rust mutates in place), and `none` when the
`assert!(negate_expr(lhs))` in the And/Or revert arm panics. -/
def negateF : Nat → Expr → Option (Bool × Expr)
  | 0, _ => Option.none
  | m + 1, e =>
    match e with
    | .BinaryOp op l r =>
      if op = .And ∨ op = .Or then
        match negateF m l with
        | Option.none => Option.none
        | some (false, l₁) => some (false, .BinaryOp op l₁ r)
        | some (true, l₁) =>
          match negateF m r with
          | Option.none => Option.none
          | some (false, r₁) =>
            match negateF m l₁ with
            | some (true, l₂) => some (false, .BinaryOp op l₂ r₁)
            | _ => Option.none
          | some (true, r₁) =>
            match flipOp op with
            | some op₂ => some (true, .BinaryOp op₂ l₁ r₁)
            | Option.none => Option.none
      else
        match flipOp op with
        | Option.none => some (false, .BinaryOp op l r)
        | some op₂ => some (true, .BinaryOp op₂ l r)
    | .UnaryOp .Not r => some (true, r)
    | .CaseWhen c t els =>
      match negateF m t with
      | Option.none => Option.none
      | some (false, t₁) => some (false, .CaseWhen c t₁ els)
      | some (true, t₁) =>
        match els with
        | Option.none => some (true, .CaseWhen c t₁ Option.none)
        | some el =>
          match negateF m el with
          | Option.none => Option.none
          | some (_, el₁) => some (true, .CaseWhen c t₁ (some el₁))
    | .Between a lo hi neg => some (true, .Between a lo hi (!neg))
    | .In l rs neg => some (true, .In l rs (!neg))
    | other => some (false, other)

/-- Embedded from `negate_expr` in
readyset-sql-passes/src/expr/normalize_negation.rs. -/
def negate_expr (e : Expr) : Option (Bool × Expr) := negateF (esize e) e

/-- The SQL expression `x BETWEEN 1 AND 5`. -/
def betweenX : Expr := .Between (.Column "x") (.Literal (.Integer 1)) (.Literal (.Integer 5)) false

/-- The SQL expression `(NOT (x BETWEEN 1 AND 5)) AND c`: its rhs conjunct is
not negatable, so `negate_expr` takes the And/Or revert arm. -/
def revertInput : Expr := .BinaryOp .And (.UnaryOp .Not betweenX) (.Column "c")

/-- What the revert arm actually leaves behind for `revertInput`:
`(x NOT BETWEEN 1 AND 5) AND c` — not the original expression. -/
def revertMutated : Expr :=
  .BinaryOp .And
    (.Between (.Column "x") (.Literal (.Integer 1)) (.Literal (.Integer 5)) true)
    (.Column "c")

/-- The SQL expression `(NOT f()) AND g()`: negating the lhs strips the NOT,
re-negating `f()` fails, so the revert assertion panics. -/
def assertInput : Expr := .BinaryOp .And (.UnaryOp .Not (.Call "f")) (.Call "g")

/-- No NOT unary operator anywhere on the negation spine (And/Or operands and
CASE branches) of the expression. -/
def notFree : Expr → Bool
  | .BinaryOp op l r => if op = .And ∨ op = .Or then notFree l && notFree r else true
  | .UnaryOp .Not _ => false
  | .CaseWhen _ t els => notFree t && (match els with | some x => notFree x | Option.none => true)
  | _ => true



end Readyset

namespace Readyset

/-! ## Theorems: concrete dataflow scenarios -/

/-- Claim C1: for c = union_all(a, b), after inserting a(1,2) and b(1,4) and
quiescing, the point lookup on c with key 1 returns exactly the two rows
(1,2) and (1,4). -/
theorem union_point_lookup :
    lookupKey (unionAll [[DataType.int 1, DataType.int 2]] [[DataType.int 1, DataType.int 4]])
        (DataType.int 1)
      = [[DataType.int 1, DataType.int 2], [DataType.int 1, DataType.int 4]] := by
  decide

/-- Claim C3: a partial reader over empty bases has length 0; after three rows
keyed 1 reach the base, a blocking lookup on key 1 returns all three rows and
the reader afterwards has exactly one filled key. -/
theorem partial_reader_scenario :
    Reader.len ⟨[], []⟩ = 0
      ∧ (Reader.lookupBlocking ⟨[], rows3⟩ (.int 1)).1 = rows3
      ∧ Reader.len (Reader.lookupBlocking ⟨[], rows3⟩ (.int 1)).2 = 1 := by
  decide

/-- Claim C5: with rows ("foo",1), ("bar",2), ("baz",3), ("BAZ",4), ("qux",5),
a full-range raw_lookup with post-filter s ILIKE "%a%" ordered by n ascending
returns exactly [("bar",2), ("baz",3), ("BAZ",4)] in that order. -/
theorem ilike_post_filter :
    rawLookupAll baseT 0 "%a%" 1
      = [[.text "bar", .int 2], [.text "baz", .int 3], [.text "BAZ", .int 4]] := by
  decide

/-- Claim C2: in the vote-count schema, looking up key 0 returns exactly
(0,"A",1) and key 1 returns exactly the null-extended row (1,"A",null); and in
general the left join emits a null-extended row for every left-side row with
no right-side match. -/
theorem vote_count_left_join :
    lookupKey awvc (.int 0) = [[.int 0, .text "A", .int 1]]
      ∧ lookupKey awvc (.int 1) = [[.int 1, .text "A", .none]]
      ∧ ∀ (L R : List Row) (lc rc w : Nat) (l : Row), l ∈ L →
          R.filter (fun r => decide (r.get? rc = l.get? lc)) = [] →
          (l ++ List.replicate w DataType.none) ∈ leftJoin L R lc rc w := by
  refine ⟨by decide, by decide, ?_⟩
  intro L R lc rc w l hmem hfilt
  unfold leftJoin
  rw [List.mem_flatMap]
  refine ⟨l, hmem, ?_⟩
  simp only [hfilt]
  exact List.mem_singleton.mpr rfl

/-- Witness for the general left-join conjunct of claim C2 at a concrete
input: the single left row ("x") with an empty right side yields its
null-extended row. -/
theorem vote_count_left_join_witness :
    ([DataType.text "x", DataType.none] : Row) ∈ leftJoin [[DataType.text "x"]] [] 0 0 1 :=
  vote_count_left_join.2.2 [[DataType.text "x"]] [] 0 0 1 [DataType.text "x"]
    (by decide) rfl

/-! ## Theorems: freshness gating -/

/-- Claim C4: a raw_lookup that supplies a required timestamp vector T fails
with a freshness miss (returning no rows and not blocking) whenever the
reader's last-seen vector does not dominate T; likewise the persistent read
handle's `do_lookup` answers `None` (a miss, no rows) whenever its
replication offset is behind the shared state's. -/
theorem raw_lookup_freshness (rd : TsReader) (q : ViewQuery) (t : TsVector)
    (hq : q.timestamp = some t) (hd : dominates rd.timestamp t = false) :
    raw_lookup rd q = ReadReply.freshnessMiss
      ∧ ∀ (h : StateHandle) (inner : SharedState) (cols : List Nat) (key : Row),
          optLt h.replicationOffset inner.replicationOffset = true →
          do_lookup h inner cols key = Option.none := by
  constructor
  · simp [raw_lookup, hq, hd]
  · intro h inner cols key hlt
    simp [do_lookup, hlt]

/-- Witness for claim C4, taken from the timestamp-propagation test: a reader
whose vector is (0 := 1) cannot satisfy the required vector (1 := 4), so the
lookup is a freshness miss. -/
theorem raw_lookup_freshness_witness :
    raw_lookup ⟨[(0, 1)], [], []⟩ ⟨.int 1, false, some [(1, 4)]⟩ = ReadReply.freshnessMiss :=
  (raw_lookup_freshness ⟨[(0, 1)], [], []⟩ ⟨.int 1, false, some [(1, 4)]⟩ [(1, 4)]
    rfl (by decide)).1

/-! ## Theorems: recipe rollback -/

/-- Claim C6: when a recipe application fails (the extension, parse, or the
migration returns an error), both `extend_recipe` and `install_recipe`
leave the controller's recipe exactly as it was before the attempt. -/
theorem recipe_rollback {ρ α ε : Type} (blank : ρ) (rev : ρ → ρ) (mig : ρ → MigOutcome α ε)
    (extendR : ρ → String → Except ε ρ) (fromStr : String → Except ε ρ)
    (replaceR : ρ → ρ → ρ) (s : Ctrl ρ) (txt : String) (e : ε) :
    ((extend_recipe blank rev mig extendR s txt).1 = .error e →
        (extend_recipe blank rev mig extendR s txt).2.recipe = s.recipe)
      ∧ ((install_recipe blank rev mig fromStr replaceR s txt).1 = .error e →
        (install_recipe blank rev mig fromStr replaceR s txt).2.recipe = s.recipe) := by
  constructor
  · intro h
    cases hE : extendR s.recipe txt with
    | error e₂ => simp [extend_recipe, hE]
    | ok newR =>
      cases hm : mig newR with
      | outerErr e₂ => simp [extend_recipe, apply_recipe, hE, hm]
      | innerErr e₂ => simp [extend_recipe, apply_recipe, hE, hm]
      | ok a =>
        exfalso
        simp [extend_recipe, apply_recipe, hE, hm] at h
  · intro h
    cases hF : fromStr txt with
    | error e₂ => simp [install_recipe, hF]
    | ok r =>
      cases hm : mig (replaceR s.recipe r) with
      | outerErr e₂ => simp [install_recipe, apply_recipe, hF, hm]
      | innerErr e₂ => simp [install_recipe, apply_recipe, hF, hm]
      | ok a =>
        exfalso
        simp [install_recipe, apply_recipe, hF, hm] at h

/-- Witness for claim C6: with recipe 42, an extension to 43 whose migration
fails with error 7, `extend_recipe` reports the error and the recipe is
still 42. -/
theorem recipe_rollback_witness :
    (extend_recipe (ρ := Nat) (α := Nat) (ε := Nat) 0 id (fun _ => .innerErr 7)
        (fun r _ => .ok (r + 1)) ⟨42⟩ "q2").2.recipe = Ctrl.recipe ⟨42⟩ :=
  (recipe_rollback 0 id (fun _ => .innerErr 7) (fun r _ => .ok (r + 1))
    (fun _ => .error 7) (fun r _ => r) ⟨42⟩ "q2" 7).1 rfl

/-! ## Theorems: worker liveness -/

/-- Claim C8 counterexample: with one healthy worker whose heartbeat is 3.5
intervals old (35 with interval 10) and the healthcheck due, the claimed
equivalence "declared failed iff older than 3 intervals" is false: the check
declares nothing failed because no worker is older than 4 intervals. -/
theorem liveness_cex :
    ¬ ((0 ∈ (check_worker_liveness cexLiveness).2) ↔
        35 > cexLiveness.heartbeatEvery * 3) := by
  decide

/-- Claim C8 (amended): a worker is declared failed by the liveness check iff
the healthcheck is due, at least one healthy worker has missed more than 4
heartbeat intervals, and the worker itself is healthy and has missed more
than 3 heartbeat intervals. -/
theorem liveness_marks_iff (s : LivenessState) (addr : Nat) :
    addr ∈ (check_worker_liveness s).2 ↔
      (s.healthcheckDue = true
        ∧ (∃ p ∈ s.workers,
            p.2.healthy = true ∧ p.2.lastHeartbeatElapsed > s.heartbeatEvery * 4)
        ∧ ∃ w, (addr, w) ∈ s.workers ∧ w.healthy = true
            ∧ w.lastHeartbeatElapsed > s.heartbeatEvery * 3) := by
  have hgate : (s.healthcheckDue && s.workers.any fun p =>
        p.2.healthy && decide (p.2.lastHeartbeatElapsed > s.heartbeatEvery * 4)) = true ↔
      (s.healthcheckDue = true ∧ ∃ p ∈ s.workers,
        p.2.healthy = true ∧ p.2.lastHeartbeatElapsed > s.heartbeatEvery * 4) := by
    simp [List.any_eq_true, Bool.and_eq_true]
  cases hgb : (s.healthcheckDue && s.workers.any fun p =>
      p.2.healthy && decide (p.2.lastHeartbeatElapsed > s.heartbeatEvery * 4)) with
  | false =>
    have hemp : (check_worker_liveness s).2 = [] := by
      simp [check_worker_liveness, hgb]
    rw [hemp]
    simp only [List.not_mem_nil, false_iff]
    rintro ⟨hdue, hany, _⟩
    have := hgate.mpr ⟨hdue, hany⟩
    rw [hgb] at this
    cases this
  | true =>
    have hexp : (check_worker_liveness s).2 =
        (s.workers.filter fun p =>
          p.2.healthy && decide (p.2.lastHeartbeatElapsed > s.heartbeatEvery * 3)).map
            Prod.fst := by
      simp [check_worker_liveness, hgb]
    rw [hexp]
    obtain ⟨hdue, hany⟩ := hgate.mp hgb
    constructor
    · intro hmem
      rw [List.mem_map] at hmem
      obtain ⟨⟨a, w⟩, hmf, rfl⟩ := hmem
      rw [List.mem_filter] at hmf
      obtain ⟨hmemw, hcond⟩ := hmf
      rw [Bool.and_eq_true, decide_eq_true_eq] at hcond
      exact ⟨hdue, hany, w, hmemw, hcond.1, hcond.2⟩
    · rintro ⟨_, _, w, hmemw, hh, he⟩
      rw [List.mem_map]
      refine ⟨(addr, w), ?_, rfl⟩
      rw [List.mem_filter]
      exact ⟨hmemw, by rw [Bool.and_eq_true, decide_eq_true_eq]; exact ⟨hh, he⟩⟩

/-! ## Theorems: node-removal ordering -/

/-- The trace produced by the leaf-removal loop is exactly one `leafStep` per
node, in the given order. -/
theorem runLeafRemovals_trace (rl : DGraph → Nat → Option DGraph) :
    ∀ (ls : List Nat) (g : DGraph) (tr : List RemovalStep) (g₂ : DGraph),
      runLeafRemovals rl g ls = some (tr, g₂) → tr = ls.map RemovalStep.leafStep := by
  intro ls
  induction ls with
  | nil =>
    intro g tr g₂ h
    simp only [runLeafRemovals, Option.some.injEq, Prod.mk.injEq] at h
    simp [← h.1]
  | cons n rest ih =>
    intro g tr g₂ h
    simp only [runLeafRemovals] at h
    cases hrl : rl g n with
    | none => simp [hrl] at h
    | some g₁ =>
      simp only [hrl] at h
      cases hrest : runLeafRemovals rl g₁ rest with
      | none => simp [hrest] at h
      | some p =>
        obtain ⟨tr₁, g₃⟩ := p
        simp only [hrest, Option.some.injEq, Prod.mk.injEq] at h
        rw [← h.1, ih g₁ tr₁ g₃ hrest, List.map_cons]

/-- The base-drop loop emits one `baseStep` per base in order, and reaches
each base only in a state where that base has no children (the assertion in
the drop loop). -/
theorem dropBases_spec :
    ∀ (bs : List Nat) (g : DGraph) (tr : List RemovalStep) (g₂ : DGraph),
      dropBases g bs = some (tr, g₂) →
      tr = bs.map RemovalStep.baseStep
        ∧ ∀ pre b post, bs = pre ++ b :: post →
            childCount (pre.foldl removeNode g) b = 0 := by
  intro bs
  induction bs with
  | nil =>
    intro g tr g₂ h
    simp only [dropBases, Option.some.injEq, Prod.mk.injEq] at h
    refine ⟨by simp [← h.1], ?_⟩
    intro pre b post heq
    cases pre <;> simp at heq
  | cons b₀ rest ih =>
    intro g tr g₂ h
    simp only [dropBases] at h
    split at h
    case isTrue hzero =>
      cases hrest : dropBases (removeNode g b₀) rest with
      | none => rw [hrest] at h; cases h
      | some p =>
        obtain ⟨tr₁, g₃⟩ := p
        rw [hrest] at h
        simp only [Option.some.injEq, Prod.mk.injEq] at h
        obtain ⟨hspec, hsafe⟩ := ih (removeNode g b₀) tr₁ g₃ hrest
        refine ⟨by rw [← h.1, hspec, List.map_cons], ?_⟩
        intro pre b post heq
        cases pre with
        | nil =>
          simp only [List.nil_append, List.cons.injEq] at heq
          rw [List.foldl_nil, ← heq.1]
          exact hzero
        | cons p₀ pre₁ =>
          simp only [List.cons_append, List.cons.injEq] at heq
          rw [List.foldl_cons, ← heq.1]
          exact hsafe pre₁ b post heq.2
    case isFalse => cases h

/-- Claim C7: a successful removal phase performs the `remove_leaf` calls
first, on non-base removed leaves only, in reverse order of the topological
enumeration `topo` (their reversal is a subsequence of `topo`), and only
afterwards drops the removed base tables, each of which has no remaining
children in the graph at the moment it is dropped. -/
theorem removal_order (rl : DGraph → Nat → Option DGraph) (g : DGraph)
    (topo removed : List Nat) (tr : List RemovalStep) (gfin : DGraph)
    (h : applyRemovals rl g topo removed = some (tr, gfin)) :
    ∃ ls g₁,
      tr = ls.map RemovalStep.leafStep
            ++ (removed.filter fun n => g.baseNodes.contains n).map RemovalStep.baseStep
        ∧ ls.reverse.Sublist topo
        ∧ (∀ n ∈ ls, n ∈ removed ∧ n ∉ g.baseNodes)
        ∧ runLeafRemovals rl g ls = some (ls.map RemovalStep.leafStep, g₁)
        ∧ ∀ pre b post,
            (removed.filter fun n => g.baseNodes.contains n) = pre ++ b :: post →
            childCount (pre.foldl removeNode g₁) b = 0 := by
  dsimp only [applyRemovals] at h
  cases h₁ : runLeafRemovals rl g
      ((topo.filter fun n =>
        (removed.filter fun m => !(g.baseNodes.contains m)).contains n).reverse) with
  | none => rw [h₁] at h; simp at h
  | some p₁ =>
    obtain ⟨tr₁, g₁⟩ := p₁
    simp only [h₁] at h
    cases h₂ : dropBases g₁ (removed.filter fun n => g.baseNodes.contains n) with
    | none => rw [h₂] at h; simp at h
    | some p₂ =>
      obtain ⟨tr₂, g₂⟩ := p₂
      simp only [h₂, Option.some.injEq, Prod.mk.injEq] at h
      obtain ⟨htr, _⟩ := h
      have htr₁ := runLeafRemovals_trace rl _ g tr₁ g₁ h₁
      obtain ⟨hspec, hsafe⟩ := dropBases_spec _ g₁ tr₂ g₂ h₂
      refine ⟨(topo.filter fun n =>
          (removed.filter fun m => !(g.baseNodes.contains m)).contains n).reverse,
        g₁, ?_, ?_, ?_, ?_, hsafe⟩
      · rw [← htr, htr₁, hspec]
      · rw [List.reverse_reverse]
        exact List.filter_sublist topo
      · intro n hn
        rw [List.mem_reverse, List.mem_filter, List.elem_iff, List.mem_filter,
          Bool.not_eq_true'] at hn
        obtain ⟨_, hrem, hnb⟩ := hn
        refine ⟨hrem, fun hb => ?_⟩
        have hbc : g.baseNodes.contains n = true := List.elem_eq_true_of_mem hb
        rw [hbc] at hnb
        exact Bool.noConfusion hnb
      · rw [← htr₁]
        exact h₁

/-- Witness for claim C7: a three-node chain base 0 → 1 → 2 with all three
removed; the leaves 2 and 1 are removed first (reverse topological order),
then base 0, which by then has no children. -/
theorem removal_order_witness :
    ∃ ls g₁,
      ([RemovalStep.leafStep 2, RemovalStep.leafStep 1, RemovalStep.baseStep 0]
          = ls.map RemovalStep.leafStep
            ++ (([0, 1, 2].filter fun n =>
              (DGraph.baseNodes ⟨[0, 1, 2], [0], [(0, 1), (1, 2)]⟩).contains n).map
                RemovalStep.baseStep))
        ∧ ls.reverse.Sublist [0, 1, 2]
        ∧ (∀ n ∈ ls, n ∈ [0, 1, 2] ∧ n ∉ DGraph.baseNodes ⟨[0, 1, 2], [0], [(0, 1), (1, 2)]⟩)
        ∧ runLeafRemovals (fun g n => some (removeNode g n)) ⟨[0, 1, 2], [0], [(0, 1), (1, 2)]⟩
            ls = some (ls.map RemovalStep.leafStep, g₁)
        ∧ ∀ pre b post,
            ([0, 1, 2].filter fun n =>
              (DGraph.baseNodes ⟨[0, 1, 2], [0], [(0, 1), (1, 2)]⟩).contains n)
              = pre ++ b :: post →
            childCount (pre.foldl removeNode g₁) b = 0 :=
  removal_order (fun g n => some (removeNode g n)) ⟨[0, 1, 2], [0], [(0, 1), (1, 2)]⟩
    [0, 1, 2] [0, 1, 2]
    [RemovalStep.leafStep 2, RemovalStep.leafStep 1, RemovalStep.baseStep 0]
    ⟨[], [], []⟩ (by decide)


/-! ## Theorems: negation normalization -/

theorem esize_pos (e : Expr) : 1 ≤ esize e := by
  cases e
  case CaseWhen c t els => cases els <;> (simp only [esize]; omega)
  all_goals (simp only [esize]; omega)

theorem negateF_size : ∀ (m : Nat) (e : Expr) (b : Bool) (f : Expr),
    esize e ≤ m → negateF m e = some (b, f) → esize f ≤ esize e := by
  intro m
  induction m with
  | zero =>
    intro e b f he h
    exact absurd h (by simp [negateF])
  | succ m ih =>
    intro e b f he h
    cases e with
    | Literal l =>
      simp only [negateF, Option.some.injEq, Prod.mk.injEq] at h
      rw [← h.2]
    | Column name =>
      simp only [negateF, Option.some.injEq, Prod.mk.injEq] at h
      rw [← h.2]
    | Call name =>
      simp only [negateF, Option.some.injEq, Prod.mk.injEq] at h
      rw [← h.2]
    | Between a lo hi neg =>
      simp only [negateF, Option.some.injEq, Prod.mk.injEq] at h
      rw [← h.2]
      simp only [esize]
      omega
    | In l rs neg =>
      simp only [negateF, Option.some.injEq, Prod.mk.injEq] at h
      rw [← h.2]
      simp only [esize]
      omega
    | UnaryOp op r =>
      cases op with
      | Not =>
        simp only [negateF, Option.some.injEq, Prod.mk.injEq] at h
        rw [← h.2]
        simp only [esize]
        omega
      | Neg =>
        simp only [negateF, Option.some.injEq, Prod.mk.injEq] at h
        rw [← h.2]
    | CaseWhen c t els =>
      cases els with
      | none =>
        have het : esize t ≤ m := by simp only [esize] at he; omega
        simp only [negateF] at h
        cases h₁ : negateF m t with
        | none => simp only [h₁] at h; exact Option.noConfusion h
        | some p =>
          obtain ⟨b₁, t₁⟩ := p
          have ht₁ : esize t₁ ≤ esize t := ih t b₁ t₁ het h₁
          simp only [h₁] at h
          cases b₁ with
          | false =>
            simp only [Option.some.injEq, Prod.mk.injEq] at h
            rw [← h.2]
            simp only [esize]
            omega
          | true =>
            simp only [Option.some.injEq, Prod.mk.injEq] at h
            rw [← h.2]
            simp only [esize]
            omega
      | some el =>
        have het : esize t ≤ m := by simp only [esize] at he; omega
        have heel : esize el ≤ m := by simp only [esize] at he; omega
        simp only [negateF] at h
        cases h₁ : negateF m t with
        | none => simp only [h₁] at h; exact Option.noConfusion h
        | some p =>
          obtain ⟨b₁, t₁⟩ := p
          have ht₁ : esize t₁ ≤ esize t := ih t b₁ t₁ het h₁
          simp only [h₁] at h
          cases b₁ with
          | false =>
            simp only [Option.some.injEq, Prod.mk.injEq] at h
            rw [← h.2]
            simp only [esize]
            omega
          | true =>
            cases h₂ : negateF m el with
            | none => simp only [h₂] at h; exact Option.noConfusion h
            | some q =>
              obtain ⟨b₂, el₁⟩ := q
              have hel₁ : esize el₁ ≤ esize el := ih el b₂ el₁ heel h₂
              simp only [h₂, Option.some.injEq, Prod.mk.injEq] at h
              rw [← h.2]
              simp only [esize]
              omega
    | BinaryOp op l r =>
      have hel : esize l ≤ m := by simp only [esize] at he; omega
      have her : esize r ≤ m := by simp only [esize] at he; omega
      simp only [negateF] at h
      by_cases hop : op = .And ∨ op = .Or
      · rw [if_pos hop] at h
        cases h₁ : negateF m l with
        | none => simp only [h₁] at h; exact Option.noConfusion h
        | some p =>
          obtain ⟨b₁, l₁⟩ := p
          have hl₁ : esize l₁ ≤ esize l := ih l b₁ l₁ hel h₁
          simp only [h₁] at h
          cases b₁ with
          | false =>
            simp only [Option.some.injEq, Prod.mk.injEq] at h
            rw [← h.2]
            simp only [esize]
            omega
          | true =>
            cases h₂ : negateF m r with
            | none => simp only [h₂] at h; exact Option.noConfusion h
            | some q =>
              obtain ⟨b₂, r₁⟩ := q
              have hr₁ : esize r₁ ≤ esize r := ih r b₂ r₁ her h₂
              simp only [h₂] at h
              cases b₂ with
              | false =>
                cases h₃ : negateF m l₁ with
                | none => simp only [h₃] at h; exact Option.noConfusion h
                | some q₂ =>
                  obtain ⟨b₃, l₂⟩ := q₂
                  have hl₂ : esize l₂ ≤ esize l₁ :=
                    ih l₁ b₃ l₂ (le_trans hl₁ hel) h₃
                  simp only [h₃] at h
                  cases b₃ with
                  | false => exact Option.noConfusion h
                  | true =>
                    simp only [Option.some.injEq, Prod.mk.injEq] at h
                    rw [← h.2]
                    simp only [esize]
                    omega
              | true =>
                rcases hop with rfl | rfl <;>
                  simp only [flipOp, Option.some.injEq, Prod.mk.injEq] at h <;>
                  rw [← h.2] <;> simp only [esize] <;> omega
      · rw [if_neg hop] at h
        cases hf : flipOp op with
        | none =>
          simp only [hf, Option.some.injEq, Prod.mk.injEq] at h
          rw [← h.2]
        | some op₂ =>
          simp only [hf, Option.some.injEq, Prod.mk.injEq] at h
          rw [← h.2]
          simp only [esize]
          omega

theorem negateF_fuel : ∀ (m₁ : Nat) (e : Expr) (m₂ : Nat),
    esize e ≤ m₁ → esize e ≤ m₂ → negateF m₁ e = negateF m₂ e := by
  intro m₁
  induction m₁ with
  | zero =>
    intro e m₂ h₁ h₂
    have := esize_pos e
    omega
  | succ m ih =>
    intro e m₂ h₁ h₂
    have hpos := esize_pos e
    cases m₂ with
    | zero => omega
    | succ m₂ =>
      cases e with
      | Literal l => rfl
      | Column name => rfl
      | Call name => rfl
      | Between a lo hi neg => rfl
      | In l rs neg => rfl
      | UnaryOp op r => cases op <;> rfl
      | CaseWhen c t els =>
        cases els with
        | none =>
          have het₁ : esize t ≤ m := by simp only [esize] at h₁; omega
          have het₂ : esize t ≤ m₂ := by simp only [esize] at h₂; omega
          simp only [negateF]
          rw [ih t m₂ het₁ het₂]
        | some el =>
          have het₁ : esize t ≤ m := by simp only [esize] at h₁; omega
          have het₂ : esize t ≤ m₂ := by simp only [esize] at h₂; omega
          have hee₁ : esize el ≤ m := by simp only [esize] at h₁; omega
          have hee₂ : esize el ≤ m₂ := by simp only [esize] at h₂; omega
          simp only [negateF]
          rw [ih t m₂ het₁ het₂, ih el m₂ hee₁ hee₂]
      | BinaryOp op l r =>
        have hl₁ : esize l ≤ m := by simp only [esize] at h₁; omega
        have hl₂ : esize l ≤ m₂ := by simp only [esize] at h₂; omega
        have hr₁ : esize r ≤ m := by simp only [esize] at h₁; omega
        have hr₂ : esize r ≤ m₂ := by simp only [esize] at h₂; omega
        simp only [negateF]
        by_cases hop : op = .And ∨ op = .Or
        · rw [if_pos hop, if_pos hop, ih l m₂ hl₁ hl₂, ih r m₂ hr₁ hr₂]
          cases hL : negateF m₂ l with
          | none => rfl
          | some p =>
            obtain ⟨b₁, l₁⟩ := p
            cases b₁ with
            | false => rfl
            | true =>
              have hsl₁ : esize l₁ ≤ esize l := negateF_size m₂ l true l₁ hl₂ hL
              cases hR : negateF m₂ r with
              | none => rfl
              | some q =>
                obtain ⟨b₂, r₁⟩ := q
                cases b₂ with
                | true => rfl
                | false =>
                  show (match negateF m l₁ with
                      | some (true, l₂) => some (false, Expr.BinaryOp op l₂ r₁)
                      | _ => Option.none)
                    = (match negateF m₂ l₁ with
                      | some (true, l₂) => some (false, Expr.BinaryOp op l₂ r₁)
                      | _ => Option.none)
                  rw [ih l₁ m₂ (le_trans hsl₁ hl₁) (le_trans hsl₁ hl₂)]
        · rw [if_neg hop, if_neg hop]

theorem negateF_eq (m : Nat) (e : Expr) (hm : esize e ≤ m) : negateF m e = negate_expr e :=
  negateF_fuel m e (esize e) hm le_rfl

theorem negate_expr_not (r : Expr) : negate_expr (.UnaryOp .Not r) = some (true, r) := rfl

theorem negate_expr_between (a lo hi : Expr) (neg : Bool) :
    negate_expr (.Between a lo hi neg) = some (true, .Between a lo hi (!neg)) := rfl

theorem negate_expr_in (l : Expr) (rs : List Expr) (neg : Bool) :
    negate_expr (.In l rs neg) = some (true, .In l rs (!neg)) := rfl

theorem negate_expr_binop_bool (op : BinaryOperator) (l r : Expr)
    (hop : op = .And ∨ op = .Or) :
    negate_expr (.BinaryOp op l r) =
      match negate_expr l with
      | Option.none => Option.none
      | some (false, l₁) => some (false, .BinaryOp op l₁ r)
      | some (true, l₁) =>
        match negate_expr r with
        | Option.none => Option.none
        | some (false, r₁) =>
          match negate_expr l₁ with
          | some (true, l₂) => some (false, .BinaryOp op l₂ r₁)
          | _ => Option.none
        | some (true, r₁) =>
          match flipOp op with
          | some op₂ => some (true, .BinaryOp op₂ l₁ r₁)
          | Option.none => Option.none := by
  show negateF (esize l + esize r + 1) (.BinaryOp op l r) = _
  simp only [negateF]
  rw [if_pos hop, negateF_eq (esize l + esize r) l (Nat.le_add_right _ _)]
  cases hL : negate_expr l with
  | none => rfl
  | some p =>
    obtain ⟨b₁, l₁⟩ := p
    cases b₁ with
    | false => rfl
    | true =>
      rw [negateF_eq (esize l + esize r) r (Nat.le_add_left _ _)]
      cases hR : negate_expr r with
      | none => rfl
      | some q =>
        obtain ⟨b₂, r₁⟩ := q
        cases b₂ with
        | true => rfl
        | false =>
          have hsz : esize l₁ ≤ esize l := negateF_size (esize l) l true l₁ le_rfl hL
          show (match negateF (esize l + esize r) l₁ with
              | some (true, l₂) => some (false, Expr.BinaryOp op l₂ r₁)
              | _ => Option.none)
            = (match negate_expr l₁ with
              | some (true, l₂) => some (false, Expr.BinaryOp op l₂ r₁)
              | _ => Option.none)
          rw [negateF_eq (esize l + esize r) l₁ (by omega)]

theorem negate_expr_binop_other (op : BinaryOperator) (l r : Expr)
    (hop : ¬(op = .And ∨ op = .Or)) :
    negate_expr (.BinaryOp op l r) =
      match flipOp op with
      | Option.none => some (false, .BinaryOp op l r)
      | some op₂ => some (true, .BinaryOp op₂ l r) := by
  show negateF (esize l + esize r + 1) (.BinaryOp op l r) = _
  simp only [negateF]
  rw [if_neg hop]

theorem negate_expr_casewhen (c t : Expr) (els : Option Expr) :
    negate_expr (.CaseWhen c t els) =
      match negate_expr t with
      | Option.none => Option.none
      | some (false, t₁) => some (false, .CaseWhen c t₁ els)
      | some (true, t₁) =>
        match els with
        | Option.none => some (true, .CaseWhen c t₁ Option.none)
        | some el =>
          match negate_expr el with
          | Option.none => Option.none
          | some (_, el₁) => some (true, .CaseWhen c t₁ (some el₁)) := by
  cases els with
  | none =>
    show negateF (esize t + 0 + 1) (.CaseWhen c t Option.none) = _
    simp only [negateF]
    rfl
  | some el =>
    show negateF (esize t + esize el + 1) (.CaseWhen c t (some el)) = _
    simp only [negateF]
    rw [negateF_eq (esize t + esize el) t (by omega),
      negateF_eq (esize t + esize el) el (by omega)]

theorem flipOp_flipOp : ∀ op op₂, flipOp op = some op₂ → flipOp op₂ = some op := by
  intro op op₂ h
  cases op <;> simp [flipOp] at h <;> subst h <;> rfl

theorem flipOp_and_or : ∀ op op₂, flipOp op = some op₂ →
    ((op₂ = .And ∨ op₂ = .Or) ↔ (op = .And ∨ op = .Or)) := by
  intro op op₂ h
  cases op <;> simp [flipOp] at h <;> subst h <;> simp

/-- Main induction: on NOT-free expressions `negate_expr` never panics, a
`false` return leaves the expression unchanged, and a `true` return yields a
NOT-free expression whose negation restores the original. -/
theorem negate_aux : ∀ (m : Nat) (e : Expr), esize e ≤ m → notFree e = true →
    (negate_expr e ≠ Option.none)
      ∧ (∀ e₁, negate_expr e = some (false, e₁) → e₁ = e)
      ∧ (∀ e₁, negate_expr e = some (true, e₁) →
          notFree e₁ = true ∧ negate_expr e₁ = some (true, e)) := by
  intro m
  induction m with
  | zero =>
    intro e he hnf
    have := esize_pos e
    omega
  | succ m ih =>
    intro e he hnf
    cases e with
    | Literal l =>
      have h0 : negate_expr (Expr.Literal l) = some (false, Expr.Literal l) := rfl
      refine ⟨by rw [h0]; simp, ?_, ?_⟩
      · intro e₁ h
        rw [h0] at h
        simp only [Option.some.injEq, Prod.mk.injEq, true_and] at h
        exact h.symm
      · intro e₁ h
        rw [h0] at h
        simp at h
    | Column name =>
      have h0 : negate_expr (Expr.Column name) = some (false, Expr.Column name) := rfl
      refine ⟨by rw [h0]; simp, ?_, ?_⟩
      · intro e₁ h
        rw [h0] at h
        simp only [Option.some.injEq, Prod.mk.injEq, true_and] at h
        exact h.symm
      · intro e₁ h
        rw [h0] at h
        simp at h
    | Call name =>
      have h0 : negate_expr (Expr.Call name) = some (false, Expr.Call name) := rfl
      refine ⟨by rw [h0]; simp, ?_, ?_⟩
      · intro e₁ h
        rw [h0] at h
        simp only [Option.some.injEq, Prod.mk.injEq, true_and] at h
        exact h.symm
      · intro e₁ h
        rw [h0] at h
        simp at h
    | UnaryOp op r =>
      cases op with
      | Not => simp [notFree] at hnf
      | Neg =>
        have h0 : negate_expr (Expr.UnaryOp .Neg r) = some (false, Expr.UnaryOp .Neg r) := rfl
        refine ⟨by rw [h0]; simp, ?_, ?_⟩
        · intro e₁ h
          rw [h0] at h
          simp only [Option.some.injEq, Prod.mk.injEq, true_and] at h
          exact h.symm
        · intro e₁ h
          rw [h0] at h
          simp at h
    | Between a lo hi neg =>
      refine ⟨by rw [negate_expr_between]; simp, ?_, ?_⟩
      · intro e₁ h
        rw [negate_expr_between] at h
        simp at h
      · intro e₁ h
        rw [negate_expr_between] at h
        simp only [Option.some.injEq, Prod.mk.injEq, true_and] at h
        rw [← h]
        exact ⟨rfl, by rw [negate_expr_between, Bool.not_not]⟩
    | In l rs neg =>
      refine ⟨by rw [negate_expr_in]; simp, ?_, ?_⟩
      · intro e₁ h
        rw [negate_expr_in] at h
        simp at h
      · intro e₁ h
        rw [negate_expr_in] at h
        simp only [Option.some.injEq, Prod.mk.injEq, true_and] at h
        rw [← h]
        exact ⟨rfl, by rw [negate_expr_in, Bool.not_not]⟩
    | CaseWhen c t els =>
      cases els with
      | none =>
        have hnft : notFree t = true := by
          simp only [notFree, Bool.and_true] at hnf
          exact hnf
        have het : esize t ≤ m := by simp only [esize] at he; omega
        obtain ⟨iht1, iht2, iht3⟩ := ih t het hnft
        refine ⟨?_, ?_, ?_⟩
        · rw [negate_expr_casewhen]
          cases hT : negate_expr t with
          | none => exact absurd hT iht1
          | some p =>
            obtain ⟨b₁, t₁⟩ := p
            cases b₁ <;> simp
        · intro e₁ h
          rw [negate_expr_casewhen] at h
          cases hT : negate_expr t with
          | none => rw [hT] at h; exact Option.noConfusion h
          | some p =>
            obtain ⟨b₁, t₁⟩ := p
            rw [hT] at h
            cases b₁ with
            | false =>
              simp only [Option.some.injEq, Prod.mk.injEq, true_and] at h
              rw [← h, iht2 t₁ hT]
            | true => simp at h
        · intro e₁ h
          rw [negate_expr_casewhen] at h
          cases hT : negate_expr t with
          | none => rw [hT] at h; exact Option.noConfusion h
          | some p =>
            obtain ⟨b₁, t₁⟩ := p
            rw [hT] at h
            cases b₁ with
            | false => simp at h
            | true =>
              simp only [Option.some.injEq, Prod.mk.injEq, true_and] at h
              obtain ⟨hnf₁, hinv⟩ := iht3 t₁ hT
              rw [← h]
              refine ⟨by simp [notFree, hnf₁], ?_⟩
              rw [negate_expr_casewhen, hinv]
      | some el =>
        have hnft : notFree t = true ∧ notFree el = true := by
          simp only [notFree, Bool.and_eq_true] at hnf
          exact hnf
        have het : esize t ≤ m := by simp only [esize] at he; omega
        have heel : esize el ≤ m := by simp only [esize] at he; omega
        obtain ⟨iht1, iht2, iht3⟩ := ih t het hnft.1
        obtain ⟨ihe1, ihe2, ihe3⟩ := ih el heel hnft.2
        refine ⟨?_, ?_, ?_⟩
        · rw [negate_expr_casewhen]
          cases hT : negate_expr t with
          | none => exact absurd hT iht1
          | some p =>
            obtain ⟨b₁, t₁⟩ := p
            cases b₁ with
            | false => simp
            | true =>
              cases hE : negate_expr el with
              | none => exact absurd hE ihe1
              | some q =>
                obtain ⟨b₂, el₁⟩ := q
                simp [hE]
        · intro e₁ h
          rw [negate_expr_casewhen] at h
          cases hT : negate_expr t with
          | none => rw [hT] at h; exact Option.noConfusion h
          | some p =>
            obtain ⟨b₁, t₁⟩ := p
            rw [hT] at h
            cases b₁ with
            | false =>
              simp only [Option.some.injEq, Prod.mk.injEq, true_and] at h
              rw [← h, iht2 t₁ hT]
            | true =>
              dsimp only at h
              cases hE : negate_expr el with
              | none => rw [hE] at h; exact Option.noConfusion h
              | some q =>
                obtain ⟨b₂, el₁⟩ := q
                rw [hE] at h
                simp at h
        · intro e₁ h
          rw [negate_expr_casewhen] at h
          cases hT : negate_expr t with
          | none => rw [hT] at h; exact Option.noConfusion h
          | some p =>
            obtain ⟨b₁, t₁⟩ := p
            rw [hT] at h
            cases b₁ with
            | false => simp at h
            | true =>
              dsimp only at h
              obtain ⟨hnf₁, hinv⟩ := iht3 t₁ hT
              cases hE : negate_expr el with
              | none => rw [hE] at h; exact Option.noConfusion h
              | some q =>
                obtain ⟨b₂, el₁⟩ := q
                rw [hE] at h
                simp only [Option.some.injEq, Prod.mk.injEq, true_and] at h
                rw [← h]
                cases b₂ with
                | false =>
                  have hel₁ : el₁ = el := ihe2 el₁ hE
                  subst hel₁
                  refine ⟨by simp [notFree, hnf₁, hnft.2], ?_⟩
                  rw [negate_expr_casewhen, hinv]
                  dsimp only
                  rw [hE]
                | true =>
                  obtain ⟨hnfe₁, hinve⟩ := ihe3 el₁ hE
                  refine ⟨by simp [notFree, hnf₁, hnfe₁], ?_⟩
                  rw [negate_expr_casewhen, hinv]
                  dsimp only
                  rw [hinve]
    | BinaryOp op l r =>
      have hel : esize l ≤ m := by simp only [esize] at he; omega
      have her : esize r ≤ m := by simp only [esize] at he; omega
      by_cases hop : op = .And ∨ op = .Or
      · have hnflr : notFree l = true ∧ notFree r = true := by
          simp only [notFree, if_pos hop, Bool.and_eq_true] at hnf
          exact hnf
        obtain ⟨ihl1, ihl2, ihl3⟩ := ih l hel hnflr.1
        obtain ⟨ihr1, ihr2, ihr3⟩ := ih r her hnflr.2
        have hops : ∃ op₂, flipOp op = some op₂ ∧ (op₂ = .And ∨ op₂ = .Or)
            ∧ flipOp op₂ = some op := by
          rcases hop with rfl | rfl
          · exact ⟨.Or, rfl, Or.inr rfl, rfl⟩
          · exact ⟨.And, rfl, Or.inl rfl, rfl⟩
        obtain ⟨op₂, hf₁, hop₂, hf₂⟩ := hops
        refine ⟨?_, ?_, ?_⟩
        · rw [negate_expr_binop_bool op l r hop]
          cases hL : negate_expr l with
          | none => exact absurd hL ihl1
          | some p =>
            obtain ⟨b₁, l₁⟩ := p
            cases b₁ with
            | false => simp
            | true =>
              cases hR : negate_expr r with
              | none => exact absurd hR ihr1
              | some q =>
                obtain ⟨b₂, r₁⟩ := q
                cases b₂ with
                | false =>
                  dsimp only
                  rw [(ihl3 l₁ hL).2]
                  simp
                | true =>
                  rw [hf₁]
                  simp
        · intro e₁ h
          rw [negate_expr_binop_bool op l r hop] at h
          cases hL : negate_expr l with
          | none => rw [hL] at h; exact Option.noConfusion h
          | some p =>
            obtain ⟨b₁, l₁⟩ := p
            rw [hL] at h
            cases b₁ with
            | false =>
              simp only [Option.some.injEq, Prod.mk.injEq, true_and] at h
              rw [← h, ihl2 l₁ hL]
            | true =>
              dsimp only at h
              cases hR : negate_expr r with
              | none => rw [hR] at h; exact Option.noConfusion h
              | some q =>
                obtain ⟨b₂, r₁⟩ := q
                rw [hR] at h
                cases b₂ with
                | false =>
                  dsimp only at h
                  rw [(ihl3 l₁ hL).2] at h
                  simp only [Option.some.injEq, Prod.mk.injEq, true_and] at h
                  rw [← h, ihr2 r₁ hR]
                | true =>
                  rw [hf₁] at h
                  simp at h
        · intro e₁ h
          rw [negate_expr_binop_bool op l r hop] at h
          cases hL : negate_expr l with
          | none => rw [hL] at h; exact Option.noConfusion h
          | some p =>
            obtain ⟨b₁, l₁⟩ := p
            rw [hL] at h
            cases b₁ with
            | false => simp at h
            | true =>
              dsimp only at h
              obtain ⟨hnfl₁, hinvl⟩ := ihl3 l₁ hL
              cases hR : negate_expr r with
              | none => rw [hR] at h; exact Option.noConfusion h
              | some q =>
                obtain ⟨b₂, r₁⟩ := q
                rw [hR] at h
                cases b₂ with
                | false =>
                  dsimp only at h
                  rw [hinvl] at h
                  simp at h
                | true =>
                  obtain ⟨hnfr₁, hinvr⟩ := ihr3 r₁ hR
                  rw [hf₁] at h
                  simp only [Option.some.injEq, Prod.mk.injEq, true_and] at h
                  rw [← h]
                  constructor
                  · simp only [notFree]
                    rw [if_pos hop₂, hnfl₁, hnfr₁]
                    rfl
                  · rw [negate_expr_binop_bool op₂ l₁ r₁ hop₂, hinvl, hinvr, hf₂]
      · have h0 := negate_expr_binop_other op l r hop
        cases hf : flipOp op with
        | none =>
          simp only [hf] at h0
          refine ⟨by rw [h0]; simp, ?_, ?_⟩
          · intro e₁ h
            rw [h0] at h
            simp only [Option.some.injEq, Prod.mk.injEq, true_and] at h
            exact h.symm
          · intro e₁ h
            rw [h0] at h
            simp at h
        | some op₂ =>
          simp only [hf] at h0
          have hop₂ : ¬(op₂ = .And ∨ op₂ = .Or) := fun hcon =>
            hop ((flipOp_and_or op op₂ hf).mp hcon)
          have hf₂ : flipOp op₂ = some op := flipOp_flipOp op op₂ hf
          refine ⟨by rw [h0]; simp, ?_, ?_⟩
          · intro e₁ h
            rw [h0] at h
            simp at h
          · intro e₁ h
            rw [h0] at h
            simp only [Option.some.injEq, Prod.mk.injEq, true_and] at h
            rw [← h]
            constructor
            · simp only [notFree]
              rw [if_neg hop₂]
            · rw [negate_expr_binop_other op₂ l r hop₂, hf₂]

/-- Claim C9: the doc comment of `negate_expr` promises that a `false` return
leaves the expression unmodified, but the code breaks it: on
`(NOT (x BETWEEN 1 AND 5)) AND c` it returns `false` with the expression
mutated to `(x NOT BETWEEN 1 AND 5) AND c`, and on `(NOT f()) AND g()` the
revert assertion panics. -/
theorem negate_expr_false_mutates :
    negate_expr revertInput = some (false, revertMutated)
      ∧ revertMutated ≠ revertInput
      ∧ negate_expr assertInput = Option.none :=
  ⟨rfl, by simp [revertMutated, revertInput], rfl⟩

/-- Claim C10 counterexample: `negate_expr` is not an involution on the
expressions it can negate: negating `NOT c` strips the NOT and returns
`true`, but a second application returns `false` and cannot restore `NOT c`. -/
theorem negate_expr_not_involution_cex :
    negate_expr (Expr.UnaryOp .Not (Expr.Column "c")) = some (true, Expr.Column "c")
      ∧ negate_expr (Expr.Column "c") = some (false, Expr.Column "c")
      ∧ negate_expr (Expr.Column "c") ≠ some (true, Expr.UnaryOp .Not (Expr.Column "c")) := by
  refine ⟨rfl, rfl, ?_⟩
  intro hc
  have h0 : negate_expr (Expr.Column "c") = some (false, Expr.Column "c") := rfl
  rw [h0] at hc
  simp at hc

/-- Claim C10 (amended): on expressions with no NOT operator on the negation
spine, `negate_expr` is an involution: a successful negation negated again
succeeds and restores the original expression. -/
theorem negate_expr_involutive_on_notfree (e e₁ : Expr) (h₁ : notFree e = true)
    (h₂ : negate_expr e = some (true, e₁)) : negate_expr e₁ = some (true, e) :=
  ((negate_aux (esize e) e le_rfl h₁).2.2 e₁ h₂).2

/-- Witness for amended claim C10: double negation restores
`x BETWEEN 1 AND 5`. -/
theorem negate_expr_involutive_on_notfree_witness :
    negate_expr (Expr.Between (Expr.Column "x") (Expr.Literal (Literal.Integer 1))
        (Expr.Literal (Literal.Integer 5)) true)
      = some (true, betweenX) :=
  negate_expr_involutive_on_notfree betweenX
    (Expr.Between (Expr.Column "x") (Expr.Literal (Literal.Integer 1))
      (Expr.Literal (Literal.Integer 5)) true)
    rfl rfl

end Readyset
